import Mathlib

/-!
Verification of the multi-field weighted resume retrieval engine
(`SimpleResumeSearch` in `src/query/query_resume_db.py`).

The embedding below models the pure aggregation and ranking phases:

* Python `dict`s preserve insertion order, so they are modelled as
  association lists (`List (String × α)`) with order-preserving
  insert/update (`dictInsert`) and first-match lookup (`dictGet?`).
* Python floats appearing in the engine (distances, similarities,
  weights) are modelled as exact rationals `ℚ`; the constants involved
  (0.3, 0.25, 0.1, 0.05, distances) are the inputs the spec reasons
  about, and the engine performs only `+ * / max` on them.
* A raised Python exception is modelled as `Except.error`: ChromaDB
  query failure re-raised by `query_resumes` (an arbitrary message)
  and `KeyError` from `self.field_weights[field]`.
* The similarity oracle (`storage.query_resumes` plus the conversion in
  `search_single_field`) is a parameter: for a fixed query it is a
  function from a field name to either an error or a match list.
-/

namespace ResumeSearch

/-- One similarity hit for a single field, as built in
`search_single_field` (lines 82–88 of `query_resume_db.py`). -/
structure FieldMatch where
  resume_id : String
  name : String
  field : String
  content : String
  distance : ℚ
deriving Repr, DecidableEq

/-- The accumulating per-candidate record created in `calculate_scores`
(lines 125–132). `field_scores` and `field_matches` are insertion-ordered
dicts keyed by field name. -/
structure Candidate where
  resume_id : String
  name : String
  field_scores : List (String × ℚ)
  field_matches : List (String × String)
  total_score : ℚ
  fields_matched : Nat
deriving Repr, DecidableEq

/-- Lookup in an insertion-ordered dict (Python `d[k]` / `k in d`). -/
def dictGet? {α : Type} (k : String) : List (String × α) → Option α
  | [] => none
  | (k', v) :: rest => if k' = k then some v else dictGet? k rest

/-- Assignment `d[k] = v` on an insertion-ordered dict: updates in place
if the key exists, appends otherwise. -/
def dictInsert {α : Type} (k : String) (v : α) : List (String × α) → List (String × α)
  | [] => [(k, v)]
  | (k', v') :: rest => if k' = k then (k, v) :: rest else (k', v') :: dictInsert k v rest

/-- The field-weight table fixed in `__init__` (lines 40–46). -/
def field_weights : List (String × ℚ) :=
  [("summary", 3/10), ("skills", 3/10), ("work_history", 25/100),
   ("project_history", 1/10), ("education", 5/100)]

/-- Iteration order of `self.field_weights.keys()` used by `search`. -/
def fieldOrder : List String := field_weights.map Prod.fst

/-- `self.field_weights[field]`: raises `KeyError` when absent. -/
def lookupWeight (f : String) : Except String ℚ :=
  match dictGet? f field_weights with
  | some w => .ok w
  | none => .error ("KeyError: " ++ f)

/-- Total weight lookup used in specification statements: the table value,
0 for a key outside the table. -/
def weightOf (f : String) : ℚ := (dictGet? f field_weights).getD 0

/-- Line 121: `similarity = max(0, 1 - (match['distance'] / 2))`. -/
def similarity (d : ℚ) : ℚ := max 0 (1 - d / 2)

/-- Line 139: `match['content'][:150] + "..."`. -/
def makeExcerpt (s : String) : String := s.take 150 ++ "..."

/-- Lines 125–132: the record created on first sighting of a resume id. -/
def newCandidate (m : FieldMatch) : Candidate :=
  { resume_id := m.resume_id, name := m.name, field_scores := [],
    field_matches := [], total_score := 0, fields_matched := 0 }

/-- Lines 134–139: keep the best score for this field — store when the
field is unseen for the candidate or the new similarity is strictly
greater than the stored one. -/
def updateForMatch (field : String) (m : FieldMatch) (c : Candidate) : Candidate :=
  let sim := similarity m.distance
  let doStore : Bool :=
    match dictGet? field c.field_scores with
    | none => true
    | some s => decide (s < sim)
  if doStore then
    { c with field_scores := dictInsert field sim c.field_scores,
             field_matches := dictInsert field (makeExcerpt m.content) c.field_matches }
  else c

/-- Lines 115–139: process one match against the insertion-ordered
candidate dict (keyed by resume id; created on first sighting). -/
def processMatch (field : String) : List Candidate → FieldMatch → List Candidate
  | [], m => [updateForMatch field m (newCandidate m)]
  | c :: cs, m =>
    if c.resume_id = m.resume_id then updateForMatch field m c :: cs
    else c :: processMatch field cs m

/-- Inner loop of lines 115–139 over one field's match list. -/
def processField (field : String) (cands : List Candidate) (ms : List FieldMatch) :
    List Candidate :=
  ms.foldl (processMatch field) cands

/-- Lines 112–139: the outer loop over `all_field_results.items()`.
Line 113 fetches `self.field_weights[field]` (raising `KeyError` for an
unknown field) before the field's matches are processed. -/
def processAllFields : List (String × List FieldMatch) → List Candidate →
    Except String (List Candidate)
  | [], cands => .ok cands
  | (f, ms) :: rest, cands =>
    match lookupWeight f with
    | .error e => .error e
    | .ok _ => processAllFields rest (processField f cands ms)

/-- Lines 146–149: accumulate `score * weight` over the stored field
scores; line 147 can raise `KeyError`. -/
def finalizeTotal : List (String × ℚ) → ℚ → Except String ℚ
  | [], acc => .ok acc
  | (f, s) :: rest, acc =>
    match lookupWeight f with
    | .error e => .error e
    | .ok w => finalizeTotal rest (acc + s * w)

/-- Lines 142–154: fill in `total_score` and `fields_matched`. -/
def finalizeCandidate (c : Candidate) : Except String Candidate :=
  match finalizeTotal c.field_scores 0 with
  | .error e => .error e
  | .ok total =>
    .ok { c with total_score := total, fields_matched := c.field_scores.length }

/-- Lines 142–154 over `candidates.values()` in insertion order. -/
def finalizeAll : List Candidate → Except String (List Candidate)
  | [] => .ok []
  | c :: cs =>
    match finalizeCandidate c with
    | .error e => .error e
    | .ok c' =>
      match finalizeAll cs with
      | .error e => .error e
      | .ok cs' => .ok (c' :: cs')

/-- `calculate_scores` (lines 94–156). -/
def calculate_scores (input : List (String × List FieldMatch)) :
    Except String (List Candidate) :=
  match processAllFields input [] with
  | .error e => .error e
  | .ok cands => finalizeAll cands

/-- Stable descending insertion respecting original order among equal
scores, as Python's stable `sorted(..., reverse=True)` does. -/
def insertByScore (c : Candidate) : List Candidate → List Candidate
  | [] => [c]
  | d :: ds => if d.total_score ≤ c.total_score then c :: d :: ds else d :: insertByScore c ds

/-- Lines 185–189: `sorted(candidates.values(), key=lambda x: x['total_score'], reverse=True)`. -/
def sortByScoreDesc : List Candidate → List Candidate
  | [] => []
  | c :: cs => insertByScore c (sortByScoreDesc cs)

/-- Python slice `lst[:k]` for an arbitrary integer `k`: a negative `k`
keeps all but the last `|k|` elements, a non-negative `k` keeps the
first `k`. -/
def pySlice {α : Type} (l : List α) (k : Int) : List α :=
  if k < 0 then l.take (l.length - k.natAbs) else l.take k.toNat

/-- Lines 184–191: sort by total score descending and slice to `num_results`. -/
def rank (cands : List Candidate) (num_results : Int) : List Candidate :=
  pySlice (sortByScoreDesc cands) num_results

/-- Lines 173–179: one oracle query per configured field, in the
configured order; an exception from any field's query propagates. -/
def gatherFields (oracle : String → Except String (List FieldMatch)) :
    List String → Except String (List (String × List FieldMatch))
  | [] => .ok []
  | f :: fs =>
    match oracle f with
    | .error e => .error e
    | .ok ms =>
      match gatherFields oracle fs with
      | .error e => .error e
      | .ok rest => .ok ((f, ms) :: rest)

/-- `search` (lines 158–191): gather per-field results, aggregate, rank. -/
def search (oracle : String → Except String (List FieldMatch)) (num_results : Int) :
    Except String (List Candidate) :=
  match gatherFields oracle fieldOrder with
  | .error e => .error e
  | .ok all =>
    match calculate_scores all with
    | .error e => .error e
    | .ok cands => .ok (rank cands num_results)

/-! ### Basic dictionary lemmas -/

theorem dictGet?_dictInsert_self {α : Type} (k : String) (v : α) (d : List (String × α)) :
    dictGet? k (dictInsert k v d) = some v := by
  induction d with
  | nil => simp [dictGet?, dictInsert]
  | cons p rest ih =>
    by_cases h : p.1 = k
    · simp [dictInsert, h, dictGet?]
    · simp [dictInsert, h, dictGet?, ih]

theorem dictGet?_dictInsert_ne {α : Type} {k k' : String} (v : α) (d : List (String × α))
    (h : k' ≠ k) : dictGet? k' (dictInsert k v d) = dictGet? k' d := by
  have hk : k ≠ k' := Ne.symm h
  induction d with
  | nil => simp [dictGet?, dictInsert, hk]
  | cons p rest ih =>
    by_cases hpk : p.1 = k
    · subst hpk
      simp [dictInsert, dictGet?, hk]
    · simp only [dictInsert, if_neg hpk, dictGet?]
      by_cases hpk' : p.1 = k'
      · simp [hpk']
      · simp [hpk', ih]

theorem mem_dictInsert {α : Type} {p : String × α} {k : String} {v : α}
    {d : List (String × α)} (h : p ∈ dictInsert k v d) : p = (k, v) ∨ p ∈ d := by
  induction d with
  | nil => simpa [dictInsert] using h
  | cons q rest ih =>
    by_cases hq : q.1 = k
    · simp only [dictInsert, if_pos hq] at h
      rcases List.mem_cons.mp h with h | h
      · exact Or.inl h
      · exact Or.inr (List.mem_cons_of_mem _ h)
    · simp only [dictInsert, if_neg hq] at h
      rcases List.mem_cons.mp h with h | h
      · exact Or.inr (h ▸ List.mem_cons_self _ _)
      · rcases ih h with h | h
        · exact Or.inl h
        · exact Or.inr (List.mem_cons_of_mem _ h)

theorem map_fst_dictInsert {α : Type} (k : String) (v : α) (d : List (String × α)) :
    (dictInsert k v d).map Prod.fst =
      if k ∈ d.map Prod.fst then d.map Prod.fst else d.map Prod.fst ++ [k] := by
  induction d with
  | nil => simp [dictInsert]
  | cons p rest ih =>
    by_cases hp : p.1 = k
    · simp [dictInsert, hp]
    · have : ¬ k = p.1 := fun h => hp h.symm
      simp only [dictInsert, if_neg hp, List.map_cons, ih, List.mem_cons, this, false_or]
      by_cases hk : k ∈ rest.map Prod.fst <;> simp [hk]

theorem dictGet?_eq_none_iff {α : Type} (k : String) (d : List (String × α)) :
    dictGet? k d = none ↔ k ∉ d.map Prod.fst := by
  induction d with
  | nil => simp [dictGet?]
  | cons p rest ih =>
    by_cases hp : p.1 = k
    · simp [dictGet?, hp]
    · have hne : ¬ k = p.1 := fun h => hp h.symm
      simp [dictGet?, hp, ih, hne]

theorem dictGet?_isSome_iff {α : Type} (k : String) (d : List (String × α)) :
    (dictGet? k d).isSome = true ↔ k ∈ d.map Prod.fst := by
  induction d with
  | nil => simp [dictGet?]
  | cons p rest ih =>
    by_cases hp : p.1 = k
    · simp [dictGet?, hp]
    · have hne : ¬ k = p.1 := fun h => hp h.symm
      simp [dictGet?, hp, ih, hne]

theorem dictGet?_some_mem {α : Type} {k : String} {v : α} {d : List (String × α)}
    (h : dictGet? k d = some v) : (k, v) ∈ d := by
  induction d with
  | nil => simp [dictGet?] at h
  | cons p rest ih =>
    by_cases hp : p.1 = k
    · simp only [dictGet?, if_pos hp] at h
      obtain ⟨a, b⟩ := p
      cases h
      cases hp
      exact List.mem_cons_self _ _
    · simp only [dictGet?, if_neg hp] at h
      exact List.mem_cons_of_mem _ (ih h)

theorem dictInsert_ne_nil {α : Type} (k : String) (v : α) (d : List (String × α)) :
    dictInsert k v d ≠ [] := by
  cases d with
  | nil => simp [dictInsert]
  | cons p rest =>
    by_cases hp : p.1 = k <;> simp [dictInsert, hp]

/-! ### Similarity bounds -/

theorem similarity_nonneg (d : ℚ) : 0 ≤ similarity d := le_max_left 0 _

theorem similarity_le_one {d : ℚ} (h : 0 ≤ d) : similarity d ≤ 1 :=
  max_le (by norm_num) (by linarith)

/-- C2: for every distance `d ≥ 0` the similarity equals `max(0, 1 - d/2)`
and lies in `[0, 1]`; in particular `similarity 0 = 1`, `similarity 1 = 0.5`,
`similarity 2 = 0` and `similarity 3 = 0` (clamped at 0 from below). The
computation is a pure function of the distance, so it is deterministic. -/
theorem C2_similarity_formula :
    (∀ d : ℚ, 0 ≤ d →
      similarity d = max 0 (1 - d / 2) ∧ 0 ≤ similarity d ∧ similarity d ≤ 1) ∧
    similarity 0 = 1 ∧ similarity 1 = 1/2 ∧ similarity 2 = 0 ∧ similarity 3 = 0 := by
  refine ⟨fun d hd => ⟨rfl, similarity_nonneg d, similarity_le_one hd⟩, ?_, ?_, ?_, ?_⟩ <;>
    · rw [similarity]
      norm_num [max_eq_left, max_eq_right]

/-- Witness for C2 at the concrete distance `3/2`. -/
theorem C2_similarity_formula_witness :
    0 ≤ (3/2 : ℚ) ∧
      (similarity (3/2) = max 0 (1 - (3/2) / 2) ∧
        0 ≤ similarity (3/2) ∧ similarity (3/2) ≤ 1) :=
  ⟨by norm_num, C2_similarity_formula.1 (3/2) (by norm_num)⟩

/-! ### Oracle error propagation and determinism of the pure phases -/

theorem gatherFields_error_of_mem {oracle : String → Except String (List FieldMatch)}
    {fs : List String} (h : ∃ f ∈ fs, ∃ e, oracle f = .error e) :
    ∃ e', gatherFields oracle fs = .error e' ∧ ∃ g ∈ fs, oracle g = .error e' := by
  induction fs with
  | nil => simp at h
  | cons f fs ih =>
    cases hf : oracle f with
    | error e =>
      exact ⟨e, by simp [gatherFields, hf], f, List.mem_cons_self _ _, hf⟩
    | ok ms =>
      obtain ⟨g, hg, e, hge⟩ := h
      have hgfs : g ∈ fs := by
        rcases List.mem_cons.mp hg with rfl | hgfs
        · rw [hf] at hge
          exact absurd hge (by simp)
        · exact hgfs
      obtain ⟨e', herr, g', hg', hg'e⟩ := ih ⟨g, hgfs, e, hge⟩
      exact ⟨e', by simp [gatherFields, hf, herr], g', List.mem_cons_of_mem _ hg', hg'e⟩

/-- C5: if the oracle's query for any one configured field raises, `search`
propagates an oracle error to its caller and aborts with no partial ranked
result — the value returned is an `error`, and it is an error some
configured field's query raised. -/
theorem C5_oracle_error_propagates (oracle : String → Except String (List FieldMatch))
    (k : Int) (h : ∃ f ∈ fieldOrder, ∃ e, oracle f = .error e) :
    ∃ e', search oracle k = .error e' ∧ ∃ g ∈ fieldOrder, oracle g = .error e' := by
  obtain ⟨e', herr, hg⟩ := gatherFields_error_of_mem h
  exact ⟨e', by simp [search, herr], hg⟩

/-- An oracle whose `skills` query fails with a backend error. -/
def failingOracle : String → Except String (List FieldMatch) := fun f =>
  if f = "skills" then .error "connection refused" else .ok []

/-- Witness for C5: the concrete failing oracle makes `search` abort. -/
theorem C5_oracle_error_propagates_witness :
    (∃ f ∈ fieldOrder, ∃ e, failingOracle f = Except.error e) ∧
    ∃ e', search failingOracle 5 = .error e' ∧
      ∃ g ∈ fieldOrder, failingOracle g = .error e' :=
  ⟨⟨"skills", by decide, "connection refused", rfl⟩,
    C5_oracle_error_propagates failingOracle 5
      ⟨"skills", by decide, "connection refused", rfl⟩⟩

theorem gatherFields_congr {o₁ o₂ : String → Except String (List FieldMatch)}
    {fs : List String} (h : ∀ f ∈ fs, o₁ f = o₂ f) :
    gatherFields o₁ fs = gatherFields o₂ fs := by
  induction fs with
  | nil => rfl
  | cons f fs ih =>
    have hf : o₁ f = o₂ f := h f (List.mem_cons_self _ _)
    have hrest : gatherFields o₁ fs = gatherFields o₂ fs :=
      ih fun g hg => h g (List.mem_cons_of_mem _ hg)
    simp [gatherFields, hf, hrest]

/-- C9: the aggregation-plus-ranking phase is deterministic — `search`
is a pure function of the per-field oracle answers, so two runs over
oracles that return identical match lists for every configured field
produce identical ranked outputs (same candidates, order, scores,
excerpts and `fields_matched`). -/
theorem C9_deterministic (o₁ o₂ : String → Except String (List FieldMatch)) (k : Int)
    (h : ∀ f ∈ fieldOrder, o₁ f = o₂ f) : search o₁ k = search o₂ k := by
  unfold search
  rw [gatherFields_congr h]

/-- Match records used in the concrete ranking demonstrations. -/
def matchA : FieldMatch :=
  { resume_id := "rA", name := "Alice", field := "skills", content := "python", distance := 0 }

def matchB : FieldMatch :=
  { resume_id := "rB", name := "Bob", field := "skills", content := "java", distance := 1 }

/-- A deterministic oracle returning two `skills` matches. -/
def twoMatchOracle : String → Except String (List FieldMatch) := fun f =>
  if f = "skills" then .ok [matchA, matchB] else .ok []

/-- A second, syntactically different oracle that answers every configured
field exactly as `twoMatchOracle` does. -/
def twoMatchOracleB : String → Except String (List FieldMatch) := fun f =>
  if f = "skills" then .ok [matchA, matchB]
  else if f = "unconfigured_extra" then .error "never asked" else .ok []

/-- Witness for C9 at two concrete oracles agreeing on the configured fields. -/
theorem C9_deterministic_witness :
    (∀ f ∈ fieldOrder, twoMatchOracle f = twoMatchOracleB f) ∧
    search twoMatchOracle 3 = search twoMatchOracleB 3 := by
  have h : ∀ f ∈ fieldOrder, twoMatchOracle f = twoMatchOracleB f := by
    intro f hf
    simp only [fieldOrder, field_weights, List.map_cons, List.map_nil, List.mem_cons,
      List.mem_singleton] at hf
    rcases hf with rfl | rfl | rfl | rfl | hf
    · rfl
    · rfl
    · rfl
    · rfl
    · simp at hf
      subst hf
      rfl
  exact ⟨h, C9_deterministic twoMatchOracle twoMatchOracleB 3 h⟩

/-- The ranked record produced for `matchA` (similarity 1 in `skills`). -/
def candA : Candidate :=
  { resume_id := "rA", name := "Alice", field_scores := [("skills", 1)],
    field_matches := [("skills", makeExcerpt "python")], total_score := 3/10,
    fields_matched := 1 }

/-- The ranked record produced for `matchB` (similarity 1/2 in `skills`). -/
def candB : Candidate :=
  { resume_id := "rB", name := "Bob", field_scores := [("skills", 1/2)],
    field_matches := [("skills", makeExcerpt "java")], total_score := 3/20,
    fields_matched := 1 }

/-- The per-field result lists the two-match oracle hands to aggregation. -/
def twoMatchResults : List (String × List FieldMatch) :=
  [("summary", []), ("skills", [matchA, matchB]), ("work_history", []),
   ("project_history", []), ("education", [])]

theorem calc_twoMatch : calculate_scores twoMatchResults = .ok [candA, candB] := by
  have h : calculate_scores twoMatchResults =
      .ok [{ resume_id := "rA", name := "Alice",
             field_scores := [("skills", similarity matchA.distance)],
             field_matches := [("skills", makeExcerpt matchA.content)],
             total_score := 0 + similarity matchA.distance * (3/10), fields_matched := 1 },
           { resume_id := "rB", name := "Bob",
             field_scores := [("skills", similarity matchB.distance)],
             field_matches := [("skills", makeExcerpt matchB.content)],
             total_score := 0 + similarity matchB.distance * (3/10), fields_matched := 1 }] := rfl
  rw [h]
  simp only [Except.ok.injEq, List.cons.injEq, Candidate.mk.injEq, candA, candB, matchA, matchB]
  norm_num [similarity]

theorem sort_twoMatch : sortByScoreDesc [candA, candB] = [candA, candB] := by
  simp only [sortByScoreDesc, insertByScore]
  norm_num [candA, candB]

theorem search_twoMatch (k : Int) :
    search twoMatchOracle k = .ok (pySlice [candA, candB] k) := by
  have h2 : search twoMatchOracle k =
      (match calculate_scores twoMatchResults with
        | .error e => .error e
        | .ok cands => .ok (rank cands k)) := rfl
  rw [h2, calc_twoMatch]
  show Except.ok (pySlice (sortByScoreDesc [candA, candB]) k) = _
  rw [sort_twoMatch]

/-- C6 (the code at lines 185–191 versus the fail-fast contract): calling
`search` with `num_results = -1` while two candidates are ranked returns
successfully — the Python slice `top_candidates[:-1]` silently drops the
last-ranked candidate — instead of failing fast with an error. -/
theorem C6_negative_k_silently_truncates :
    search twoMatchOracle (-1) = .ok [candA] ∧
    search twoMatchOracle 5 = .ok [candA, candB] := by
  constructor <;>
    · rw [search_twoMatch]
      norm_num [pySlice]

/-! ### Aggregation invariants -/

/-- Explicit form of the per-match update (lines 134–139). -/
theorem updateForMatch_eq (field : String) (m : FieldMatch) (c : Candidate) :
    updateForMatch field m c =
      if (match dictGet? field c.field_scores with
          | none => true
          | some s => decide (s < similarity m.distance)) = true then
        { c with field_scores := dictInsert field (similarity m.distance) c.field_scores,
                 field_matches := dictInsert field (makeExcerpt m.content) c.field_matches }
      else c := rfl

theorem resume_id_updateForMatch (field : String) (m : FieldMatch) (c : Candidate) :
    (updateForMatch field m c).resume_id = c.resume_id := by
  rw [updateForMatch_eq]
  split <;> rfl

/-- Well-formedness of a candidate record during aggregation, parametric in
a key property `P` and a stored-score property `S`: the field keys are
distinct, scores and excerpts are stored for exactly the same fields, every
stored entry satisfies `P`/`S`, and at least one field has been stored. -/
def GoodCand (P : String → Prop) (S : ℚ → Prop) (c : Candidate) : Prop :=
  (c.field_scores.map Prod.fst).Nodup ∧
  c.field_scores.map Prod.fst = c.field_matches.map Prod.fst ∧
  (∀ p ∈ c.field_scores, P p.1 ∧ S p.2) ∧
  c.field_scores ≠ []

/-- Well-formedness of the whole candidate dict: every record is good and
the resume ids are distinct. -/
def GoodState (P : String → Prop) (S : ℚ → Prop) (cands : List Candidate) : Prop :=
  (∀ c ∈ cands, GoodCand P S c) ∧ (cands.map Candidate.resume_id).Nodup

theorem goodCand_updateForMatch {P : String → Prop} {S : ℚ → Prop} {field : String}
    {m : FieldMatch} {c : Candidate} (hc : GoodCand P S c)
    (hP : P field) (hS : S (similarity m.distance)) :
    GoodCand P S (updateForMatch field m c) := by
  obtain ⟨hnd, hal, hprops, hne⟩ := hc
  rw [updateForMatch_eq]
  split
  · refine ⟨?_, ?_, ?_, dictInsert_ne_nil _ _ _⟩
    · show ((dictInsert field (similarity m.distance) c.field_scores).map Prod.fst).Nodup
      rw [map_fst_dictInsert]
      split
      · exact hnd
      · rename_i hnot
        have : (field :: c.field_scores.map Prod.fst).Nodup := List.nodup_cons.mpr ⟨hnot, hnd⟩
        exact ((List.perm_append_singleton _ _).nodup_iff).mpr this
    · show (dictInsert field (similarity m.distance) c.field_scores).map Prod.fst
          = (dictInsert field (makeExcerpt m.content) c.field_matches).map Prod.fst
      rw [map_fst_dictInsert, map_fst_dictInsert, hal]
    · intro p hp
      rcases mem_dictInsert hp with rfl | hp
      · exact ⟨hP, hS⟩
      · exact hprops p hp
  · exact ⟨hnd, hal, hprops, hne⟩

theorem goodCand_updateForMatch_new {P : String → Prop} {S : ℚ → Prop} {field : String}
    (m : FieldMatch) (hP : P field) (hS : S (similarity m.distance)) :
    GoodCand P S (updateForMatch field m (newCandidate m)) := by
  have h : updateForMatch field m (newCandidate m) =
      { resume_id := m.resume_id, name := m.name,
        field_scores := [(field, similarity m.distance)],
        field_matches := [(field, makeExcerpt m.content)],
        total_score := 0, fields_matched := 0 } := rfl
  rw [h]
  refine ⟨by simp, by simp, ?_, by simp⟩
  intro p hp
  simp only [List.mem_singleton] at hp
  subst hp
  exact ⟨hP, hS⟩

theorem ids_processMatch (field : String) (m : FieldMatch) :
    ∀ cands : List Candidate,
      (processMatch field cands m).map Candidate.resume_id =
        if m.resume_id ∈ cands.map Candidate.resume_id then cands.map Candidate.resume_id
        else cands.map Candidate.resume_id ++ [m.resume_id] := by
  intro cands
  induction cands with
  | nil => simp [processMatch, resume_id_updateForMatch, newCandidate]
  | cons c cs ih =>
    by_cases hc : c.resume_id = m.resume_id
    · have hm : m.resume_id ∈ c.resume_id :: cs.map Candidate.resume_id := by
        rw [hc]
        exact List.mem_cons_self _ _
      simp only [processMatch, if_pos hc, List.map_cons, resume_id_updateForMatch]
      rw [if_pos hm]
    · have hne : ¬ m.resume_id = c.resume_id := fun h => hc h.symm
      simp only [processMatch, if_neg hc, List.map_cons, ih, List.mem_cons, hne, false_or]
      by_cases hm : m.resume_id ∈ cs.map Candidate.resume_id <;> simp [hm]

theorem mem_ids_processMatch (field : String) (m : FieldMatch) (cands : List Candidate)
    (rid : String) :
    rid ∈ (processMatch field cands m).map Candidate.resume_id ↔
      rid ∈ cands.map Candidate.resume_id ∨ rid = m.resume_id := by
  rw [ids_processMatch]
  split
  · rename_i hm
    exact ⟨Or.inl, fun hor => hor.elim id (fun he => he ▸ hm)⟩
  · simp

theorem goodState_processMatch {P : String → Prop} {S : ℚ → Prop} {field : String}
    {m : FieldMatch} (hP : P field) (hS : S (similarity m.distance)) :
    ∀ {cands : List Candidate}, GoodState P S cands →
      GoodState P S (processMatch field cands m) := by
  intro cands h
  obtain ⟨hall, hids⟩ := h
  constructor
  · clear hids
    induction cands with
    | nil =>
      intro c hc
      simp only [processMatch, List.mem_singleton] at hc
      subst hc
      exact goodCand_updateForMatch_new m hP hS
    | cons d ds ih =>
      intro c hc
      by_cases hd : d.resume_id = m.resume_id
      · simp only [processMatch, if_pos hd] at hc
        rcases List.mem_cons.mp hc with rfl | hc
        · exact goodCand_updateForMatch (hall d (List.mem_cons_self _ _)) hP hS
        · exact hall c (List.mem_cons_of_mem _ hc)
      · simp only [processMatch, if_neg hd] at hc
        rcases List.mem_cons.mp hc with rfl | hc
        · exact hall c (List.mem_cons_self _ _)
        · exact ih (fun c' hc' => hall c' (List.mem_cons_of_mem _ hc')) c hc
  · rw [ids_processMatch]
    split
    · exact hids
    · rename_i hnot
      have : (m.resume_id :: cands.map Candidate.resume_id).Nodup :=
        List.nodup_cons.mpr ⟨hnot, hids⟩
      exact ((List.perm_append_singleton _ _).nodup_iff).mpr this

theorem processField_cons (field : String) (cands : List Candidate) (m : FieldMatch)
    (ms : List FieldMatch) :
    processField field cands (m :: ms) = processField field (processMatch field cands m) ms := rfl

theorem goodState_processField {P : String → Prop} {S : ℚ → Prop} {field : String}
    (hP : P field) :
    ∀ (ms : List FieldMatch) (cands : List Candidate),
      (∀ m ∈ ms, S (similarity m.distance)) → GoodState P S cands →
        GoodState P S (processField field cands ms) := by
  intro ms
  induction ms with
  | nil => intro cands _ h; exact h
  | cons m ms ih =>
    intro cands hS h
    rw [processField_cons]
    exact ih _ (fun m' hm' => hS m' (List.mem_cons_of_mem _ hm'))
      (goodState_processMatch hP (hS m (List.mem_cons_self _ _)) h)

theorem mem_ids_processField (field : String) (rid : String) :
    ∀ (ms : List FieldMatch) (cands : List Candidate),
      rid ∈ (processField field cands ms).map Candidate.resume_id ↔
        rid ∈ cands.map Candidate.resume_id ∨ ∃ m ∈ ms, m.resume_id = rid := by
  intro ms
  induction ms with
  | nil => intro cands; simp [processField]
  | cons m ms ih =>
    intro cands
    rw [processField_cons, ih, mem_ids_processMatch]
    constructor
    · rintro ((h | h) | ⟨m', hm', hr⟩)
      · exact Or.inl h
      · exact Or.inr ⟨m, List.mem_cons_self _ _, h.symm⟩
      · exact Or.inr ⟨m', List.mem_cons_of_mem _ hm', hr⟩
    · rintro (h | ⟨m', hm', hr⟩)
      · exact Or.inl (Or.inl h)
      · rcases List.mem_cons.mp hm' with rfl | hm'
        · exact Or.inl (Or.inr hr.symm)
        · exact Or.inr ⟨m', hm', hr⟩

theorem goodState_processAllFields {P : String → Prop} {S : ℚ → Prop} :
    ∀ (input : List (String × List FieldMatch)) (cands cands' : List Candidate),
      processAllFields input cands = .ok cands' →
      (∀ p ∈ input, P p.1 ∧ ∀ m ∈ p.2, S (similarity m.distance)) →
      GoodState P S cands → GoodState P S cands' := by
  intro input
  induction input with
  | nil =>
    intro cands cands' h _ hg
    simp only [processAllFields, Except.ok.injEq] at h
    exact h ▸ hg
  | cons p rest ih =>
    intro cands cands' h hprops hg
    obtain ⟨f, ms⟩ := p
    cases hw : lookupWeight f with
    | error e => simp [processAllFields, hw] at h
    | ok w =>
      simp only [processAllFields, hw] at h
      have hp := hprops (f, ms) (List.mem_cons_self _ _)
      exact ih _ _ h (fun q hq => hprops q (List.mem_cons_of_mem _ hq))
        (goodState_processField hp.1 ms cands hp.2 hg)

theorem processAllFields_fields_known :
    ∀ (input : List (String × List FieldMatch)) (cands cands' : List Candidate),
      processAllFields input cands = .ok cands' →
      ∀ p ∈ input, (dictGet? p.1 field_weights).isSome = true := by
  intro input
  induction input with
  | nil => intro cands cands' _ p hp; simp at hp
  | cons q rest ih =>
    intro cands cands' h p hp
    obtain ⟨f, ms⟩ := q
    cases hw : lookupWeight f with
    | error e => simp [processAllFields, hw] at h
    | ok w =>
      simp only [processAllFields, hw] at h
      rcases List.mem_cons.mp hp with rfl | hp
      · rw [lookupWeight] at hw
        cases hd : dictGet? f field_weights with
        | none => rw [hd] at hw; cases hw
        | some u => simp [hd]
      · exact ih _ _ h p hp

theorem mem_ids_processAllFields (rid : String) :
    ∀ (input : List (String × List FieldMatch)) (cands cands' : List Candidate),
      processAllFields input cands = .ok cands' →
      (rid ∈ cands'.map Candidate.resume_id ↔
        rid ∈ cands.map Candidate.resume_id ∨ ∃ p ∈ input, ∃ m ∈ p.2, m.resume_id = rid) := by
  intro input
  induction input with
  | nil =>
    intro cands cands' h
    simp only [processAllFields, Except.ok.injEq] at h
    subst h
    simp
  | cons q rest ih =>
    intro cands cands' h
    obtain ⟨f, ms⟩ := q
    cases hw : lookupWeight f with
    | error e => simp [processAllFields, hw] at h
    | ok w =>
      simp only [processAllFields, hw] at h
      rw [ih _ _ h, mem_ids_processField]
      constructor
      · rintro ((h' | ⟨m, hm, hr⟩) | ⟨p, hp, m, hm, hr⟩)
        · exact Or.inl h'
        · exact Or.inr ⟨(f, ms), List.mem_cons_self _ _, m, hm, hr⟩
        · exact Or.inr ⟨p, List.mem_cons_of_mem _ hp, m, hm, hr⟩
      · rintro (h' | ⟨p, hp, m, hm, hr⟩)
        · exact Or.inl (Or.inl h')
        · rcases List.mem_cons.mp hp with rfl | hp
          · exact Or.inl (Or.inr ⟨m, hm, hr⟩)
          · exact Or.inr ⟨p, hp, m, hm, hr⟩

/-! ### Finalization: totals and counts -/

/-- The finalizer applied to each record by lines 142–154: the total is the
weighted sum of the stored field scores and `fields_matched` their count. -/
def finalizeFn (c : Candidate) : Candidate :=
  { c with total_score := (c.field_scores.map (fun p => p.2 * weightOf p.1)).sum,
           fields_matched := c.field_scores.length }

theorem finalizeTotal_ok :
    ∀ (fs : List (String × ℚ)) (acc : ℚ),
      (∀ p ∈ fs, (dictGet? p.1 field_weights).isSome = true) →
      finalizeTotal fs acc = .ok (acc + (fs.map (fun p => p.2 * weightOf p.1)).sum) := by
  intro fs
  induction fs with
  | nil => intro acc _; simp [finalizeTotal]
  | cons p rest ih =>
    intro acc h
    obtain ⟨f, s⟩ := p
    obtain ⟨w, hw'⟩ := Option.isSome_iff_exists.mp (h (f, s) (List.mem_cons_self _ _))
    have hlw : lookupWeight f = .ok w := by rw [lookupWeight, hw']
    have hwf : weightOf f = w := by rw [weightOf, hw']; rfl
    simp only [finalizeTotal, hlw]
    rw [ih _ (fun q hq => h q (List.mem_cons_of_mem _ hq))]
    simp only [List.map_cons, List.sum_cons, hwf, Except.ok.injEq]
    ring

theorem finalizeCandidate_ok (c : Candidate)
    (h : ∀ p ∈ c.field_scores, (dictGet? p.1 field_weights).isSome = true) :
    finalizeCandidate c = .ok (finalizeFn c) := by
  rw [finalizeCandidate, finalizeTotal_ok c.field_scores 0 h]
  rw [zero_add]
  rfl

theorem finalizeAll_ok :
    ∀ (cands : List Candidate),
      (∀ c ∈ cands, ∀ p ∈ c.field_scores, (dictGet? p.1 field_weights).isSome = true) →
      finalizeAll cands = .ok (cands.map finalizeFn) := by
  intro cands
  induction cands with
  | nil => intro _; rfl
  | cons c cs ih =>
    intro h
    rw [finalizeAll, finalizeCandidate_ok c (h c (List.mem_cons_self _ _)),
      ih (fun c' hc' => h c' (List.mem_cons_of_mem _ hc'))]
    rfl

theorem calculate_scores_eq {input : List (String × List FieldMatch)}
    {cands' : List Candidate} (h : calculate_scores input = .ok cands') :
    ∃ cands, processAllFields input [] = .ok cands ∧ finalizeAll cands = .ok cands' := by
  rw [calculate_scores] at h
  cases hp : processAllFields input [] with
  | error e => rw [hp] at h; cases h
  | ok cands => rw [hp] at h; exact ⟨cands, rfl, h⟩

/-- Structure of a successful `calculate_scores` run: the output is the
finalized image of a well-formed aggregation state whose stored field keys
all carry weights. -/
theorem calculate_scores_ok_struct {S : ℚ → Prop}
    {input : List (String × List FieldMatch)} {cands' : List Candidate}
    (h : calculate_scores input = .ok cands')
    (hS : ∀ p ∈ input, ∀ m ∈ p.2, S (similarity m.distance)) :
    ∃ cands, processAllFields input [] = .ok cands ∧ cands' = cands.map finalizeFn ∧
      GoodState (fun f => (dictGet? f field_weights).isSome = true) S cands := by
  obtain ⟨cands, hp, hf⟩ := calculate_scores_eq h
  have hknown := processAllFields_fields_known input [] cands hp
  have hgood := goodState_processAllFields
    (P := fun f => (dictGet? f field_weights).isSome = true) (S := S) input [] cands hp
    (fun p hp' => ⟨hknown p hp', hS p hp'⟩)
    ⟨fun c hc => absurd hc (List.not_mem_nil c), List.nodup_nil⟩
  have hall : finalizeAll cands = .ok (cands.map finalizeFn) :=
    finalizeAll_ok cands (fun c hc p hps => ((hgood.1 c hc).2.2.1 p hps).1)
  rw [hall] at hf
  injection hf with hf
  exact ⟨cands, hp, hf.symm, hgood⟩

/-! ### Weight-table facts -/

theorem weightOf_nonneg (f : String) : 0 ≤ weightOf f := by
  rw [weightOf]
  cases h : dictGet? f field_weights with
  | none => simp
  | some w =>
    have hmem := dictGet?_some_mem h
    simp only [Option.getD_some]
    fin_cases hmem <;> norm_num

theorem sum_map_le_of_nodup_subset (w : String → ℚ) (hw : ∀ f, 0 ≤ w f) :
    ∀ (T K : List String), K.Nodup → (∀ f ∈ K, f ∈ T) →
      (K.map w).sum ≤ (T.map w).sum := by
  intro T
  induction T with
  | nil =>
    intro K _ hsub
    have : K = [] := List.eq_nil_iff_forall_not_mem.mpr fun a ha => List.not_mem_nil a (hsub a ha)
    subst this
    simp
  | cons t T ih =>
    intro K hnd hsub
    by_cases ht : t ∈ K
    · have hperm : K.Perm (t :: K.erase t) := List.perm_cons_erase ht
      have hsum : (K.map w).sum = w t + ((K.erase t).map w).sum := by
        rw [(hperm.map w).sum_eq]
        simp
      rw [hsum, List.map_cons, List.sum_cons]
      have hsub' : ∀ f ∈ K.erase t, f ∈ T := by
        intro f hf
        have hfK := (List.Nodup.mem_erase_iff hnd).mp hf
        rcases List.mem_cons.mp (hsub f hfK.2) with h | h
        · exact absurd h hfK.1
        · exact h
      exact add_le_add_left (ih _ (hnd.erase t) hsub') (w t)
    · have hsub' : ∀ f ∈ K, f ∈ T := by
        intro f hf
        rcases List.mem_cons.mp (hsub f hf) with h | h
        · exact absurd (h ▸ hf) ht
        · exact h
      calc (K.map w).sum ≤ (T.map w).sum := ih _ hnd hsub'
        _ ≤ w t + (T.map w).sum := le_add_of_nonneg_left (hw t)
        _ = ((t :: T).map w).sum := by simp

theorem sum_weightOf_fieldOrder :
    ((fieldOrder.map weightOf).sum : ℚ) = (field_weights.map Prod.snd).sum := rfl

theorem weightedSum_le_weightSum {fs : List (String × ℚ)}
    (hnd : (fs.map Prod.fst).Nodup)
    (hmem : ∀ p ∈ fs, p.1 ∈ field_weights.map Prod.fst)
    (hle : ∀ p ∈ fs, p.2 ≤ 1) :
    (fs.map (fun p => p.2 * weightOf p.1)).sum ≤ (field_weights.map Prod.snd).sum := by
  have h1 : (fs.map (fun p => p.2 * weightOf p.1)).sum ≤ (fs.map (fun p => weightOf p.1)).sum :=
    List.sum_le_sum fun p hp => mul_le_of_le_one_left (weightOf_nonneg p.1) (hle p hp)
  have h2 : (fs.map (fun p => weightOf p.1)).sum = ((fs.map Prod.fst).map weightOf).sum := by
    rw [List.map_map]
    rfl
  have hmem' : ∀ f ∈ fs.map Prod.fst, f ∈ field_weights.map Prod.fst := by
    intro f hf
    obtain ⟨p, hp, rfl⟩ := List.mem_map.mp hf
    exact hmem p hp
  have h3 : ((fs.map Prod.fst).map weightOf).sum ≤ ((field_weights.map Prod.fst).map weightOf).sum :=
    sum_map_le_of_nodup_subset weightOf weightOf_nonneg _ _ hnd hmem'
  have h4 : ((field_weights.map Prod.fst).map weightOf).sum = (field_weights.map Prod.snd).sum :=
    sum_weightOf_fieldOrder
  linarith

theorem sum_weights_eq_one : ((field_weights.map Prod.snd).sum : ℚ) = 1 := by
  norm_num [field_weights]

/-! ### Claims about totals, candidate presence and the weight domain -/

/-- C1: for every aggregation input (with the oracle-contract distances
`d ≥ 0`), each output candidate's `total_score` equals the sum over the
fields actually matched of `field_scores[f] * weight(f)` (unmatched fields
contribute nothing, being absent from `field_scores`), and the total never
exceeds the sum of all configured weights, which is 1 in the default
0.30/0.30/0.25/0.10/0.05 configuration. -/
theorem C1_total_score_weighted_sum (input : List (String × List FieldMatch))
    (cands : List Candidate) (hok : calculate_scores input = .ok cands)
    (hd : ∀ p ∈ input, ∀ m ∈ p.2, 0 ≤ m.distance) :
    ∀ c ∈ cands,
      c.total_score = (c.field_scores.map (fun p => p.2 * weightOf p.1)).sum ∧
      c.total_score ≤ (field_weights.map Prod.snd).sum ∧
      ((field_weights.map Prod.snd).sum : ℚ) = 1 := by
  have hS : ∀ p ∈ input, ∀ m ∈ p.2, similarity m.distance ≤ 1 :=
    fun p hp m hm => similarity_le_one (hd p hp m hm)
  obtain ⟨cands0, hp, rfl, hgood⟩ :=
    calculate_scores_ok_struct (S := fun s => s ≤ 1) hok hS
  intro c hc
  obtain ⟨c0, hc0, rfl⟩ := List.mem_map.mp hc
  obtain ⟨hnd, hal, hprops, hne⟩ := hgood.1 c0 hc0
  have hkeys : ∀ p ∈ c0.field_scores, p.1 ∈ field_weights.map Prod.fst :=
    fun p hp' => (dictGet?_isSome_iff p.1 field_weights).mp (hprops p hp').1
  have hle : ∀ p ∈ c0.field_scores, p.2 ≤ 1 := fun p hp' => (hprops p hp').2
  exact ⟨rfl, weightedSum_le_weightSum hnd hkeys hle, sum_weights_eq_one⟩

theorem twoMatch_distance_nonneg : ∀ p ∈ twoMatchResults, ∀ m ∈ p.2, 0 ≤ m.distance := by
  intro p hp m hm
  simp only [twoMatchResults, List.mem_cons, List.not_mem_nil, or_false] at hp
  rcases hp with rfl | rfl | rfl | rfl | rfl
  · simp at hm
  · simp only [List.mem_cons, List.not_mem_nil, or_false] at hm
    rcases hm with rfl | rfl
    · norm_num [matchA]
    · norm_num [matchB]
  · simp at hm
  · simp at hm
  · simp at hm

/-- Witness for C1 on the concrete two-match aggregation input. -/
theorem C1_total_score_weighted_sum_witness :
    (calculate_scores twoMatchResults = .ok [candA, candB]) ∧
    (∀ p ∈ twoMatchResults, ∀ m ∈ p.2, 0 ≤ m.distance) ∧
    (∀ c ∈ [candA, candB],
      c.total_score = (c.field_scores.map (fun p => p.2 * weightOf p.1)).sum ∧
      c.total_score ≤ (field_weights.map Prod.snd).sum ∧
      ((field_weights.map Prod.snd).sum : ℚ) = 1) :=
  ⟨calc_twoMatch, twoMatch_distance_nonneg,
    C1_total_score_weighted_sum twoMatchResults [candA, candB] calc_twoMatch
      twoMatch_distance_nonneg⟩

/-- C8: a record appears in the aggregation output iff that candidate has
at least one match in at least one field; every output record has
`fields_matched = |field_scores| ≥ 1`, and at most the number of configured
fields, which is 5. -/
theorem C8_candidate_presence (input : List (String × List FieldMatch))
    (cands : List Candidate) (hok : calculate_scores input = .ok cands) :
    (∀ rid, (∃ c ∈ cands, c.resume_id = rid) ↔
      ∃ p ∈ input, ∃ m ∈ p.2, m.resume_id = rid) ∧
    (∀ c ∈ cands, c.fields_matched = c.field_scores.length ∧
      1 ≤ c.fields_matched ∧ c.fields_matched ≤ field_weights.length) ∧
    field_weights.length = 5 := by
  obtain ⟨cands0, hp, rfl, hgood⟩ :=
    calculate_scores_ok_struct (S := fun _ => True) hok (fun _ _ _ _ => trivial)
  have hmap : (cands0.map finalizeFn).map Candidate.resume_id
      = cands0.map Candidate.resume_id := by
    rw [List.map_map]
    rfl
  refine ⟨?_, ?_, rfl⟩
  · intro rid
    constructor
    · rintro ⟨c, hc, rfl⟩
      have hmem : c.resume_id ∈ (cands0.map finalizeFn).map Candidate.resume_id :=
        List.mem_map_of_mem _ hc
      rw [hmap] at hmem
      rcases (mem_ids_processAllFields c.resume_id input [] cands0 hp).mp hmem with h | h
      · simp at h
      · exact h
    · rintro ⟨p, hpmem, m, hm, hr⟩
      have hmem : rid ∈ cands0.map Candidate.resume_id :=
        (mem_ids_processAllFields rid input [] cands0 hp).mpr
          (Or.inr ⟨p, hpmem, m, hm, hr⟩)
      rw [← hmap] at hmem
      exact List.mem_map.mp hmem
  · intro c hc
    obtain ⟨c0, hc0, rfl⟩ := List.mem_map.mp hc
    obtain ⟨hnd, hal, hprops, hne⟩ := hgood.1 c0 hc0
    refine ⟨rfl, List.length_pos.mpr hne, ?_⟩
    have hsub : ∀ f ∈ c0.field_scores.map Prod.fst, f ∈ field_weights.map Prod.fst := by
      intro f hf
      obtain ⟨p, hp', rfl⟩ := List.mem_map.mp hf
      exact (dictGet?_isSome_iff p.1 field_weights).mp (hprops p hp').1
    have hsp := (List.Nodup.subperm hnd hsub).length_le
    simpa using hsp

/-- Witness for C8 on the concrete two-match aggregation input. -/
theorem C8_candidate_presence_witness :
    (calculate_scores twoMatchResults = .ok [candA, candB]) ∧
    ((∀ rid, (∃ c ∈ [candA, candB], c.resume_id = rid) ↔
      ∃ p ∈ twoMatchResults, ∃ m ∈ p.2, m.resume_id = rid) ∧
    (∀ c ∈ [candA, candB], c.fields_matched = c.field_scores.length ∧
      1 ≤ c.fields_matched ∧ c.fields_matched ≤ field_weights.length) ∧
    field_weights.length = 5) :=
  ⟨calc_twoMatch, C8_candidate_presence twoMatchResults [candA, candB] calc_twoMatch⟩

theorem processAllFields_ok_of_known :
    ∀ (input : List (String × List FieldMatch)) (cands : List Candidate),
      (∀ p ∈ input, p.1 ∈ field_weights.map Prod.fst) →
      ∃ cands', processAllFields input cands = .ok cands' := by
  intro input
  induction input with
  | nil => intro cands _; exact ⟨cands, rfl⟩
  | cons q rest ih =>
    intro cands h
    obtain ⟨f, ms⟩ := q
    have hf : f ∈ field_weights.map Prod.fst := h (f, ms) (List.mem_cons_self _ _)
    obtain ⟨w, hw⟩ := Option.isSome_iff_exists.mp ((dictGet?_isSome_iff f field_weights).mpr hf)
    have hlw : lookupWeight f = .ok w := by rw [lookupWeight, hw]
    obtain ⟨cands', hok⟩ :=
      ih (processField f cands ms) (fun q hq => h q (List.mem_cons_of_mem _ hq))
    refine ⟨cands', ?_⟩
    simp only [processAllFields, hlw]
    exact hok

theorem calculate_scores_ok_of_known (input : List (String × List FieldMatch))
    (h : ∀ p ∈ input, p.1 ∈ field_weights.map Prod.fst) :
    ∃ cands, calculate_scores input = .ok cands := by
  obtain ⟨cands0, hp⟩ := processAllFields_ok_of_known input [] h
  have hknown := processAllFields_fields_known input [] cands0 hp
  have hgood := goodState_processAllFields
    (P := fun f => (dictGet? f field_weights).isSome = true) (S := fun _ => True)
    input [] cands0 hp (fun p hp' => ⟨hknown p hp', fun _ _ => trivial⟩)
    ⟨fun c hc => absurd hc (List.not_mem_nil c), List.nodup_nil⟩
  have hall := finalizeAll_ok cands0 (fun c hc p hps => ((hgood.1 c hc).2.2.1 p hps).1)
  refine ⟨cands0.map finalizeFn, ?_⟩
  unfold calculate_scores
  rw [hp]
  exact hall

/-- A match list filed under a key absent from the weight table. -/
def locationMatch : FieldMatch :=
  { resume_id := "rC", name := "Cara", field := "location", content := "remote", distance := 0 }

/-- C10: score calculation succeeds whenever every input field key belongs
to the configured weight table, and for an input carrying a field name
outside the table (`"location"`) the unguarded `self.field_weights[field]`
lookup raises a `KeyError` before any candidate totals are produced. -/
theorem C10_weight_lookup_domain :
    (∀ input : List (String × List FieldMatch),
      (∀ p ∈ input, p.1 ∈ field_weights.map Prod.fst) →
      ∃ cands, calculate_scores input = .ok cands) ∧
    calculate_scores [("location", [locationMatch])] = .error ("KeyError: " ++ "location") :=
  ⟨calculate_scores_ok_of_known, rfl⟩

/-- Witness for C10 on an input using only the configured `skills` field. -/
theorem C10_weight_lookup_domain_witness :
    (∀ p ∈ [(("skills" : String), [matchA])], p.1 ∈ field_weights.map Prod.fst) ∧
    ∃ cands, calculate_scores [("skills", [matchA])] = .ok cands := by
  have h : ∀ p ∈ [(("skills" : String), [matchA])], p.1 ∈ field_weights.map Prod.fst := by
    intro p hp
    simp only [List.mem_singleton] at hp
    subst hp
    simp [field_weights]
  exact ⟨h, C10_weight_lookup_domain.1 _ h⟩

/-! ### Ranking: descending sort and slicing -/

theorem length_insertByScore (c : Candidate) :
    ∀ l : List Candidate, (insertByScore c l).length = l.length + 1 := by
  intro l
  induction l with
  | nil => rfl
  | cons d ds ih =>
    by_cases h : d.total_score ≤ c.total_score <;> simp [insertByScore, h, ih]

theorem length_sortByScoreDesc (cands : List Candidate) :
    (sortByScoreDesc cands).length = cands.length := by
  induction cands with
  | nil => rfl
  | cons c cs ih => simp [sortByScoreDesc, length_insertByScore, ih]

theorem mem_insertByScore {x c : Candidate} :
    ∀ {l : List Candidate}, x ∈ insertByScore c l → x = c ∨ x ∈ l := by
  intro l
  induction l with
  | nil => intro h; simpa [insertByScore] using h
  | cons d ds ih =>
    intro h
    by_cases hd : d.total_score ≤ c.total_score
    · simp only [insertByScore, if_pos hd] at h
      rcases List.mem_cons.mp h with rfl | h
      · exact Or.inl rfl
      · exact Or.inr h
    · simp only [insertByScore, if_neg hd] at h
      rcases List.mem_cons.mp h with rfl | h
      · exact Or.inr (List.mem_cons_self _ _)
      · rcases ih h with h | h
        · exact Or.inl h
        · exact Or.inr (List.mem_cons_of_mem _ h)

theorem pairwise_insertByScore {c : Candidate} :
    ∀ {l : List Candidate},
      l.Pairwise (fun a b => b.total_score ≤ a.total_score) →
      (insertByScore c l).Pairwise (fun a b => b.total_score ≤ a.total_score) := by
  intro l
  induction l with
  | nil => intro _; simp [insertByScore]
  | cons d ds ih =>
    intro h
    obtain ⟨hd, hds⟩ := List.pairwise_cons.mp h
    by_cases hc : d.total_score ≤ c.total_score
    · simp only [insertByScore, if_pos hc]
      refine List.pairwise_cons.mpr ⟨?_, h⟩
      intro x hx
      rcases List.mem_cons.mp hx with rfl | hx
      · exact hc
      · exact le_trans (hd x hx) hc
    · simp only [insertByScore, if_neg hc]
      refine List.pairwise_cons.mpr ⟨?_, ih hds⟩
      intro x hx
      rcases mem_insertByScore hx with rfl | hx
      · exact le_of_lt (lt_of_not_le hc)
      · exact hd x hx

theorem sortByScoreDesc_sorted (cands : List Candidate) :
    (sortByScoreDesc cands).Pairwise (fun a b => b.total_score ≤ a.total_score) := by
  induction cands with
  | nil => simp [sortByScoreDesc]
  | cons c cs ih => exact pairwise_insertByScore ih

/-- C4: for every candidate mapping and every `k ≥ 0` the ranking phase
returns exactly `min k |candidates|` entries ordered by descending
`total_score` — whenever entry `i` has a strictly higher total score than
entry `j`, it appears earlier — and returns the empty sequence when `k = 0`
or when there are no candidates. -/
theorem C4_rank_order (cands : List Candidate) (k : Int) (hk : 0 ≤ k) :
    (rank cands k).length = min k.toNat cands.length ∧
    (∀ (i j : Nat) (hi : i < (rank cands k).length) (hj : j < (rank cands k).length),
      ((rank cands k).get ⟨j, hj⟩).total_score < ((rank cands k).get ⟨i, hi⟩).total_score →
      i < j) ∧
    (k = 0 → rank cands k = []) ∧
    (cands = [] → rank cands k = []) := by
  have hneg : ¬ k < 0 := not_lt.mpr hk
  have hr : rank cands k = (sortByScoreDesc cands).take k.toNat := by
    rw [rank, pySlice, if_neg hneg]
  have hsorted : (rank cands k).Pairwise (fun a b => b.total_score ≤ a.total_score) := by
    rw [hr]
    exact List.Pairwise.sublist (List.take_sublist _ _) (sortByScoreDesc_sorted cands)
  refine ⟨?_, ?_, ?_, ?_⟩
  · rw [hr, List.length_take, length_sortByScoreDesc]
  · intro i j hi hj hlt
    by_contra hij
    push_neg at hij
    rcases Nat.lt_or_eq_of_le hij with hji | rfl
    · have := List.pairwise_iff_getElem.mp hsorted j i hj hi hji
      simp only [List.get_eq_getElem] at hlt
      exact absurd hlt (not_lt.mpr this)
    · exact lt_irrefl _ hlt
  · intro hk0
    subst hk0
    rw [hr]
    rfl
  · intro hc
    subst hc
    rw [hr]
    simp [sortByScoreDesc]

/-- Witness for C4 at the concrete (initially unsorted) candidate list
`[candB, candA]` and `k = 1`. -/
theorem C4_rank_order_witness :
    0 ≤ (1 : Int) ∧
    ((rank [candB, candA] 1).length = min (Int.toNat 1) [candB, candA].length ∧
    (∀ (i j : Nat) (hi : i < (rank [candB, candA] 1).length)
        (hj : j < (rank [candB, candA] 1).length),
      ((rank [candB, candA] 1).get ⟨j, hj⟩).total_score <
        ((rank [candB, candA] 1).get ⟨i, hi⟩).total_score → i < j) ∧
    ((1 : Int) = 0 → rank [candB, candA] 1 = []) ∧
    ([candB, candA] = ([] : List Candidate) → rank [candB, candA] 1 = [])) :=
  ⟨by decide, C4_rank_order [candB, candA] 1 (by decide)⟩

/-! ### Stored best-score characterization (per candidate and field) -/

/-- Dict-style lookup of a candidate record by resume id. -/
def findCand (rid : String) : List Candidate → Option Candidate
  | [] => none
  | c :: cs => if c.resume_id = rid then some c else findCand rid cs

/-- Effect of lines 134–139 on a per-field stored (score, excerpt) pair:
store on first sighting, replace only on a strictly greater similarity. -/
def pairStep (m : FieldMatch) : Option (ℚ × String) → Option (ℚ × String)
  | none => some (similarity m.distance, makeExcerpt m.content)
  | some (s, e) =>
    if s < similarity m.distance then some (similarity m.distance, makeExcerpt m.content)
    else some (s, e)

/-- One aggregation step restricted to the matches of one resume id. -/
def bestStep (rid : String) (acc : Option (ℚ × String)) (m : FieldMatch) :
    Option (ℚ × String) :=
  if m.resume_id = rid then pairStep m acc else acc

/-- The stored (score, excerpt) pair that processing a match list leaves for
one resume id, starting from nothing stored. -/
def bestFor (rid : String) (ms : List FieldMatch) : Option (ℚ × String) :=
  ms.foldl (bestStep rid) none

/-- The (score, excerpt) pair a candidate record stores for a field. -/
def candPair (c : Candidate) (f : String) : Option (ℚ × String) :=
  match dictGet? f c.field_scores, dictGet? f c.field_matches with
  | some s, some e => some (s, e)
  | _, _ => none

/-- The (score, excerpt) pair the candidate dict stores for a resume id and
field. -/
def storedPair (cands : List Candidate) (rid f : String) : Option (ℚ × String) :=
  match findCand rid cands with
  | none => none
  | some c => candPair c f

theorem candPair_updateForMatch_self {field : String} {m : FieldMatch} {c : Candidate}
    (hal : c.field_scores.map Prod.fst = c.field_matches.map Prod.fst) :
    candPair (updateForMatch field m c) field = pairStep m (candPair c field) := by
  cases hs : dictGet? field c.field_scores with
  | none =>
    have he : dictGet? field c.field_matches = none := by
      rw [dictGet?_eq_none_iff, ← hal, ← dictGet?_eq_none_iff]
      exact hs
    rw [updateForMatch_eq, hs]
    rw [if_pos rfl]
    simp only [candPair, dictGet?_dictInsert_self, hs, he]
    rfl
  | some s =>
    have hesome : (dictGet? field c.field_matches).isSome = true := by
      rw [dictGet?_isSome_iff, ← hal, ← dictGet?_isSome_iff, hs]
      rfl
    obtain ⟨e, he⟩ := Option.isSome_iff_exists.mp hesome
    rw [updateForMatch_eq, hs]
    by_cases hlt : s < similarity m.distance
    · rw [if_pos (by simp [hlt])]
      simp only [candPair, dictGet?_dictInsert_self, hs, he, pairStep, if_pos hlt]
    · rw [if_neg (by simp [hlt])]
      simp only [candPair, hs, he, pairStep, if_neg hlt]

theorem candPair_updateForMatch_other {field f' : String} {m : FieldMatch} {c : Candidate}
    (hne : f' ≠ field) :
    candPair (updateForMatch field m c) f' = candPair c f' := by
  rw [updateForMatch_eq]
  split
  · simp only [candPair, dictGet?_dictInsert_ne _ _ hne]
  · rfl

theorem candPair_newCandidate (m : FieldMatch) (f : String) :
    candPair (newCandidate m) f = none := rfl

theorem findCand_processMatch_self (field : String) (m : FieldMatch) :
    ∀ cands : List Candidate,
      findCand m.resume_id (processMatch field cands m) =
        some (updateForMatch field m ((findCand m.resume_id cands).getD (newCandidate m))) := by
  intro cands
  induction cands with
  | nil =>
    have hid : (updateForMatch field m (newCandidate m)).resume_id = m.resume_id := by
      rw [resume_id_updateForMatch]
      rfl
    simp [processMatch, findCand, hid]
  | cons c cs ih =>
    by_cases hc : c.resume_id = m.resume_id
    · have hid : (updateForMatch field m c).resume_id = m.resume_id := by
        rw [resume_id_updateForMatch]
        exact hc
      simp [processMatch, hc, findCand, hid]
    · simp [processMatch, hc, findCand, ih]

theorem findCand_processMatch_other {rid : String} (field : String) (m : FieldMatch)
    (hne : rid ≠ m.resume_id) :
    ∀ cands, findCand rid (processMatch field cands m) = findCand rid cands := by
  intro cands
  induction cands with
  | nil =>
    have hid : (updateForMatch field m (newCandidate m)).resume_id = m.resume_id := by
      rw [resume_id_updateForMatch]
      rfl
    have : ¬ (updateForMatch field m (newCandidate m)).resume_id = rid := by
      rw [hid]
      exact fun h => hne h.symm
    simp [processMatch, findCand, this]
  | cons c cs ih =>
    by_cases hc : c.resume_id = m.resume_id
    · have hid : (updateForMatch field m c).resume_id = c.resume_id :=
        resume_id_updateForMatch field m c
      have hcr : ¬ c.resume_id = rid := by
        rw [hc]
        exact fun h => hne h.symm
      have hcr' : ¬ (updateForMatch field m c).resume_id = rid := by
        rw [hid]
        exact hcr
      have hmr : ¬ m.resume_id = rid := fun h => hne h.symm
      simp [processMatch, hc, findCand, hcr, hcr', hmr]
    · by_cases hcrid : c.resume_id = rid
      · simp [processMatch, hc, findCand, hcrid, hne]
      · simp [processMatch, hc, findCand, hcrid, ih]

theorem findCand_mem {rid : String} {c : Candidate} :
    ∀ {cands : List Candidate}, findCand rid cands = some c → c ∈ cands := by
  intro cands
  induction cands with
  | nil => intro h; cases h
  | cons d ds ih =>
    intro h
    by_cases hd : d.resume_id = rid
    · rw [findCand, if_pos hd] at h
      injection h with h
      exact h ▸ List.mem_cons_self _ _
    · rw [findCand, if_neg hd] at h
      exact List.mem_cons_of_mem _ (ih h)

theorem storedPair_processMatch {field rid f : String} {m : FieldMatch}
    {cands : List Candidate}
    (hal : ∀ c ∈ cands, c.field_scores.map Prod.fst = c.field_matches.map Prod.fst) :
    storedPair (processMatch field cands m) rid f =
      if f = field then bestStep rid (storedPair cands rid f) m
      else storedPair cands rid f := by
  by_cases hrid : m.resume_id = rid
  · subst hrid
    rw [storedPair, findCand_processMatch_self]
    rw [bestStep, if_pos rfl]
    cases hfind : findCand m.resume_id cands with
    | none =>
      have hsp : storedPair cands m.resume_id f = none := by
        rw [storedPair, hfind]
      rw [hsp]
      show candPair (updateForMatch field m (Option.getD none (newCandidate m))) f = _
      rw [Option.getD_none]
      by_cases hf : f = field
      · subst hf
        rw [if_pos rfl, candPair_updateForMatch_self (c := newCandidate m) rfl,
          candPair_newCandidate]
      · rw [if_neg hf, candPair_updateForMatch_other hf, candPair_newCandidate]
    | some c0 =>
      have hsp : storedPair cands m.resume_id f = candPair c0 f := by
        rw [storedPair, hfind]
      have halc : c0.field_scores.map Prod.fst = c0.field_matches.map Prod.fst :=
        hal c0 (findCand_mem hfind)
      rw [hsp]
      show candPair (updateForMatch field m (Option.getD (some c0) (newCandidate m))) f = _
      rw [Option.getD_some]
      by_cases hf : f = field
      · subst hf
        rw [if_pos rfl, candPair_updateForMatch_self halc]
      · rw [if_neg hf, candPair_updateForMatch_other hf]
  · have h := findCand_processMatch_other field m (fun he => hrid he.symm) cands
    rw [storedPair, h, ← storedPair, bestStep, if_neg hrid]
    split <;> rfl

/-- The aligned-and-distinct bookkeeping state, with no constraint on keys
or scores. -/
def Tidy (cands : List Candidate) : Prop :=
  GoodState (fun _ => True) (fun _ => True) cands

theorem tidy_nil : Tidy [] :=
  ⟨fun c hc => absurd hc (List.not_mem_nil c), List.nodup_nil⟩

theorem tidy_aligned {cands : List Candidate} (h : Tidy cands) :
    ∀ c ∈ cands, c.field_scores.map Prod.fst = c.field_matches.map Prod.fst :=
  fun c hc => (h.1 c hc).2.1

theorem tidy_processMatch {field : String} {m : FieldMatch} {cands : List Candidate}
    (h : Tidy cands) : Tidy (processMatch field cands m) :=
  goodState_processMatch trivial trivial h

theorem storedPair_processField (field rid f : String) :
    ∀ (ms : List FieldMatch) (cands : List Candidate), Tidy cands →
      storedPair (processField field cands ms) rid f =
        if f = field then ms.foldl (bestStep rid) (storedPair cands rid f)
        else storedPair cands rid f := by
  intro ms
  induction ms with
  | nil =>
    intro cands _
    split <;> rfl
  | cons m ms ih =>
    intro cands ht
    rw [processField_cons, ih _ (tidy_processMatch ht),
      storedPair_processMatch (tidy_aligned ht)]
    by_cases hf : f = field
    · rw [if_pos hf, if_pos hf, if_pos hf, List.foldl_cons]
    · rw [if_neg hf, if_neg hf, if_neg hf]

theorem tidy_processField {field : String} :
    ∀ (ms : List FieldMatch) {cands : List Candidate}, Tidy cands →
      Tidy (processField field cands ms) := by
  intro ms cands h
  exact goodState_processField trivial ms cands (fun _ _ => trivial) h

theorem storedPair_processAllFields {rid f : String} :
    ∀ (input : List (String × List FieldMatch)) (cands cands' : List Candidate),
      (input.map Prod.fst).Nodup →
      processAllFields input cands = .ok cands' →
      Tidy cands →
      storedPair cands' rid f =
        match dictGet? f input with
        | some ms => ms.foldl (bestStep rid) (storedPair cands rid f)
        | none => storedPair cands rid f := by
  intro input
  induction input with
  | nil =>
    intro cands cands' _ h _
    simp only [processAllFields, Except.ok.injEq] at h
    subst h
    rfl
  | cons q rest ih =>
    intro cands cands' hnd h ht
    obtain ⟨f0, ms0⟩ := q
    cases hw : lookupWeight f0 with
    | error e => simp [processAllFields, hw] at h
    | ok w =>
      simp only [processAllFields, hw] at h
      have hnd0 : (f0 :: rest.map Prod.fst).Nodup := by simpa using hnd
      have hf0 : f0 ∉ rest.map Prod.fst := (List.nodup_cons.mp hnd0).1
      have hnd' : (rest.map Prod.fst).Nodup := (List.nodup_cons.mp hnd0).2
      have ht' : Tidy (processField f0 cands ms0) := tidy_processField ms0 ht
      have hrec := ih (processField f0 cands ms0) cands' hnd' h ht'
      have hstep := storedPair_processField f0 rid f ms0 cands ht
      by_cases hff : f0 = f
      · subst hff
        have hrest : dictGet? f0 rest = none := (dictGet?_eq_none_iff _ _).mpr hf0
        rw [hrest] at hrec
        have hget : dictGet? f0 (((f0, ms0) : String × List FieldMatch) :: rest)
            = some ms0 := by
          simp [dictGet?]
        rw [hget, hrec, hstep, if_pos rfl]
      · have hget : dictGet? f (((f0, ms0) : String × List FieldMatch) :: rest)
            = dictGet? f rest := by
          simp [dictGet?, hff]
        rw [hget, hrec]
        have hne : ¬ f = f0 := fun he => hff he.symm
        rw [hstep, if_neg hne]

theorem findCand_map_finalize (rid : String) :
    ∀ cands, findCand rid (cands.map finalizeFn) = (findCand rid cands).map finalizeFn := by
  intro cands
  induction cands with
  | nil => rfl
  | cons c cs ih =>
    have hid : (finalizeFn c).resume_id = c.resume_id := rfl
    by_cases hc : c.resume_id = rid
    · simp [findCand, finalizeFn, hc]
    · simp only [List.map_cons, findCand, hid, if_neg hc]
      exact ih

theorem storedPair_map_finalize (cands : List Candidate) (rid f : String) :
    storedPair (cands.map finalizeFn) rid f = storedPair cands rid f := by
  rw [storedPair, storedPair, findCand_map_finalize]
  cases findCand rid cands <;> rfl

/-- Master characterization: after a successful `calculate_scores` run over
a dict-shaped input, the stored (score, excerpt) pair of any candidate at
any field is exactly what folding that field's match list (restricted to
that candidate) leaves behind. -/
theorem calculate_scores_storedPair {input : List (String × List FieldMatch)}
    {cands' : List Candidate} (hnd : (input.map Prod.fst).Nodup)
    (hok : calculate_scores input = .ok cands') :
    ∀ rid f, storedPair cands' rid f =
      match dictGet? f input with
      | some ms => bestFor rid ms
      | none => none := by
  obtain ⟨cands0, hp, rfl, hgood⟩ :=
    calculate_scores_ok_struct (S := fun _ => True) hok (fun _ _ _ _ => trivial)
  intro rid f
  rw [storedPair_map_finalize,
    storedPair_processAllFields input [] cands0 hnd hp tidy_nil]
  cases dictGet? f input <;> rfl

/-! ### What the stored pair is: the maximum, first occurrence winning ties -/

theorem foldl_bestStep_some (rid : String) :
    ∀ (ms : List FieldMatch) (s₀ : ℚ) (e₀ : String),
      ∃ s e, ms.foldl (bestStep rid) (some (s₀, e₀)) = some (s, e) ∧ s₀ ≤ s ∧
        (∀ m ∈ ms, m.resume_id = rid → similarity m.distance ≤ s) ∧
        ((s = s₀ ∧ e = e₀) ∨
         ∃ l₁ m l₂, ms = l₁ ++ m :: l₂ ∧ m.resume_id = rid ∧ similarity m.distance = s ∧
           e = makeExcerpt m.content ∧ s₀ < s ∧
           ∀ mp ∈ l₁, mp.resume_id = rid → similarity mp.distance < s) := by
  intro ms
  induction ms with
  | nil =>
    intro s₀ e₀
    exact ⟨s₀, e₀, rfl, le_refl _, by simp, Or.inl ⟨rfl, rfl⟩⟩
  | cons m ms ih =>
    intro s₀ e₀
    by_cases hm : m.resume_id = rid
    · by_cases hlt : s₀ < similarity m.distance
      · have hstep : bestStep rid (some (s₀, e₀)) m
            = some (similarity m.distance, makeExcerpt m.content) := by
          rw [bestStep, if_pos hm]
          simp only [pairStep]
          rw [if_pos hlt]
        obtain ⟨s, e, heq, hle, hbound, hdisj⟩ :=
          ih (similarity m.distance) (makeExcerpt m.content)
        refine ⟨s, e, ?_, le_trans (le_of_lt hlt) hle, ?_, ?_⟩
        · rw [List.foldl_cons, hstep]
          exact heq
        · intro m' hm' hr
          rcases List.mem_cons.mp hm' with rfl | hm'
          · exact hle
          · exact hbound m' hm' hr
        · right
          rcases hdisj with ⟨hs_eq, he_eq⟩ | ⟨l₁, m', l₂, hsplit, hr, hsim, hexc, hlt', hfirst⟩
          · refine ⟨[], m, ms, rfl, hm, hs_eq.symm, he_eq, ?_, ?_⟩
            · rw [hs_eq]
              exact hlt
            · intro mp hmp
              exact absurd hmp (List.not_mem_nil mp)
          · refine ⟨m :: l₁, m', l₂, by rw [hsplit, List.cons_append], hr, hsim, hexc,
              lt_trans hlt hlt', ?_⟩
            intro mp hmp hrp
            rcases List.mem_cons.mp hmp with rfl | hmp
            · exact hlt'
            · exact hfirst mp hmp hrp
      · have hge : similarity m.distance ≤ s₀ := not_lt.mp hlt
        have hstep : bestStep rid (some (s₀, e₀)) m = some (s₀, e₀) := by
          rw [bestStep, if_pos hm]
          simp only [pairStep]
          rw [if_neg hlt]
        obtain ⟨s, e, heq, hle, hbound, hdisj⟩ := ih s₀ e₀
        refine ⟨s, e, ?_, hle, ?_, ?_⟩
        · rw [List.foldl_cons, hstep]
          exact heq
        · intro m' hm' hr
          rcases List.mem_cons.mp hm' with rfl | hm'
          · exact le_trans hge hle
          · exact hbound m' hm' hr
        · rcases hdisj with hl | ⟨l₁, m', l₂, hsplit, hr, hsim, hexc, hlt', hfirst⟩
          · exact Or.inl hl
          · right
            refine ⟨m :: l₁, m', l₂, by rw [hsplit, List.cons_append], hr, hsim, hexc, hlt', ?_⟩
            intro mp hmp hrp
            rcases List.mem_cons.mp hmp with rfl | hmp
            · exact lt_of_le_of_lt hge hlt'
            · exact hfirst mp hmp hrp
    · have hstep : bestStep rid (some (s₀, e₀)) m = some (s₀, e₀) := by
        rw [bestStep, if_neg hm]
      obtain ⟨s, e, heq, hle, hbound, hdisj⟩ := ih s₀ e₀
      refine ⟨s, e, ?_, hle, ?_, ?_⟩
      · rw [List.foldl_cons, hstep]
        exact heq
      · intro m' hm' hr
        rcases List.mem_cons.mp hm' with rfl | hm'
        · exact absurd hr hm
        · exact hbound m' hm' hr
      · rcases hdisj with hl | ⟨l₁, m', l₂, hsplit, hr, hsim, hexc, hlt', hfirst⟩
        · exact Or.inl hl
        · right
          refine ⟨m :: l₁, m', l₂, by rw [hsplit, List.cons_append], hr, hsim, hexc, hlt', ?_⟩
          intro mp hmp hrp
          rcases List.mem_cons.mp hmp with rfl | hmp
          · exact absurd hrp hm
          · exact hfirst mp hmp hrp

theorem bestFor_some (rid : String) :
    ∀ (ms : List FieldMatch) (s : ℚ) (e : String), bestFor rid ms = some (s, e) →
      (∀ m ∈ ms, m.resume_id = rid → similarity m.distance ≤ s) ∧
      ∃ l₁ m l₂, ms = l₁ ++ m :: l₂ ∧ m.resume_id = rid ∧ similarity m.distance = s ∧
        e = makeExcerpt m.content ∧
        ∀ mp ∈ l₁, mp.resume_id = rid → similarity mp.distance < s := by
  intro ms
  induction ms with
  | nil => intro s e h; cases h
  | cons m ms ih =>
    intro s e h
    by_cases hm : m.resume_id = rid
    · have heq : bestFor rid (m :: ms)
          = ms.foldl (bestStep rid) (some (similarity m.distance, makeExcerpt m.content)) := by
        rw [bestFor, List.foldl_cons]
        have : bestStep rid none m = some (similarity m.distance, makeExcerpt m.content) := by
          rw [bestStep, if_pos hm]
          rfl
        rw [this]
      obtain ⟨s', e', heq', hle, hbound, hdisj⟩ :=
        foldl_bestStep_some rid ms (similarity m.distance) (makeExcerpt m.content)
      rw [heq, heq'] at h
      injection h with h
      cases h
      constructor
      · intro m' hm' hr
        rcases List.mem_cons.mp hm' with rfl | hm'
        · exact hle
        · exact hbound m' hm' hr
      · rcases hdisj with ⟨hs_eq, he_eq⟩ | ⟨l₁, m', l₂, hsplit, hr, hsim, hexc, hlt', hfirst⟩
        · refine ⟨[], m, ms, rfl, hm, hs_eq.symm, he_eq, ?_⟩
          intro mp hmp
          exact absurd hmp (List.not_mem_nil mp)
        · refine ⟨m :: l₁, m', l₂, by rw [hsplit, List.cons_append], hr, hsim, hexc, ?_⟩
          intro mp hmp hrp
          rcases List.mem_cons.mp hmp with rfl | hmp
          · exact hlt'
          · exact hfirst mp hmp hrp
    · have heq : bestFor rid (m :: ms) = bestFor rid ms := by
        rw [bestFor, bestFor, List.foldl_cons]
        have h0 : bestStep rid none m = none := by
          rw [bestStep, if_neg hm]
        rw [h0]
      rw [heq] at h
      obtain ⟨hbound, l₁, m', l₂, hsplit, hr, hsim, hexc, hfirst⟩ := ih s e h
      refine ⟨?_, m :: l₁, m', l₂, by rw [hsplit, List.cons_append], hr, hsim, hexc, ?_⟩
      · intro m'' hm'' hrr
        rcases List.mem_cons.mp hm'' with rfl | hm''
        · exact absurd hrr hm
        · exact hbound m'' hm'' hrr
      · intro mp hmp hrp
        rcases List.mem_cons.mp hmp with rfl | hmp
        · exact absurd hrp hm
        · exact hfirst mp hmp hrp

theorem findCand_of_mem {cands : List Candidate}
    (hnd : (cands.map Candidate.resume_id).Nodup) {c : Candidate} (hc : c ∈ cands) :
    findCand c.resume_id cands = some c := by
  induction cands with
  | nil => exact absurd hc (List.not_mem_nil c)
  | cons d ds ih =>
    rw [List.map_cons] at hnd
    obtain ⟨hd, hnd'⟩ := List.nodup_cons.mp hnd
    rcases List.mem_cons.mp hc with rfl | hc
    · rw [findCand, if_pos rfl]
    · have hne : d.resume_id ≠ c.resume_id := by
        intro he
        exact hd (he ▸ List.mem_map_of_mem _ hc)
      rw [findCand, if_neg hne]
      exact ih hnd' hc

theorem ids_map_finalize (cands : List Candidate) :
    (cands.map finalizeFn).map Candidate.resume_id = cands.map Candidate.resume_id := by
  rw [List.map_map]
  rfl

/-- C3: after aggregating a dict-shaped input, every score stored in a
candidate's `field_scores[f]` is the maximum similarity over all of that
candidate's matches in field `f`'s result list; it is attained by a match
whose excerpt is the one stored, and every earlier match of that candidate
in the list scores strictly lower — ties are won by the first such match
in processing order, because only a strictly greater similarity replaces
the stored value. -/
theorem C3_field_scores_max (input : List (String × List FieldMatch))
    (cands : List Candidate) (hnd : (input.map Prod.fst).Nodup)
    (hok : calculate_scores input = .ok cands) :
    ∀ c ∈ cands, ∀ f s, dictGet? f c.field_scores = some s →
      ∃ ms, dictGet? f input = some ms ∧
        (∀ m ∈ ms, m.resume_id = c.resume_id → similarity m.distance ≤ s) ∧
        ∃ l₁ m l₂, ms = l₁ ++ m :: l₂ ∧ m.resume_id = c.resume_id ∧
          similarity m.distance = s ∧
          dictGet? f c.field_matches = some (makeExcerpt m.content) ∧
          ∀ mp ∈ l₁, mp.resume_id = c.resume_id → similarity mp.distance < s := by
  obtain ⟨cands0, hp, rfl, hgood⟩ :=
    calculate_scores_ok_struct (S := fun _ => True) hok (fun _ _ _ _ => trivial)
  intro c hc f s hs
  have hndids : ((cands0.map finalizeFn).map Candidate.resume_id).Nodup := by
    rw [ids_map_finalize]
    exact hgood.2
  have hfind : findCand c.resume_id (cands0.map finalizeFn) = some c :=
    findCand_of_mem hndids hc
  obtain ⟨c0, hc0, rfl⟩ := List.mem_map.mp hc
  have hal : (finalizeFn c0).field_scores.map Prod.fst
      = (finalizeFn c0).field_matches.map Prod.fst := (hgood.1 c0 hc0).2.1
  have hesome : (dictGet? f (finalizeFn c0).field_matches).isSome = true := by
    rw [dictGet?_isSome_iff, ← hal, ← dictGet?_isSome_iff, hs]
    rfl
  obtain ⟨e, he⟩ := Option.isSome_iff_exists.mp hesome
  have hsp : storedPair (cands0.map finalizeFn) (finalizeFn c0).resume_id f
      = some (s, e) := by
    rw [storedPair, hfind]
    show candPair (finalizeFn c0) f = some (s, e)
    rw [candPair, hs, he]
  have hchar := calculate_scores_storedPair hnd hok (finalizeFn c0).resume_id f
  rw [hsp] at hchar
  cases hin : dictGet? f input with
  | none =>
    rw [hin] at hchar
    cases hchar
  | some ms =>
    rw [hin] at hchar
    obtain ⟨hbound, l₁, m, l₂, hsplit, hr, hsim, hexc, hfirst⟩ :=
      bestFor_some (finalizeFn c0).resume_id ms s e hchar.symm
    refine ⟨ms, rfl, hbound, l₁, m, l₂, hsplit, hr, hsim, ?_, hfirst⟩
    rw [he, hexc]

/-- Witness for C3 on the concrete two-match aggregation input. -/
theorem C3_field_scores_max_witness :
    ((twoMatchResults.map Prod.fst).Nodup ∧
      calculate_scores twoMatchResults = .ok [candA, candB]) ∧
    (∀ c ∈ [candA, candB], ∀ f s, dictGet? f c.field_scores = some s →
      ∃ ms, dictGet? f twoMatchResults = some ms ∧
        (∀ m ∈ ms, m.resume_id = c.resume_id → similarity m.distance ≤ s) ∧
        ∃ l₁ m l₂, ms = l₁ ++ m :: l₂ ∧ m.resume_id = c.resume_id ∧
          similarity m.distance = s ∧
          dictGet? f c.field_matches = some (makeExcerpt m.content) ∧
          ∀ mp ∈ l₁, mp.resume_id = c.resume_id → similarity mp.distance < s) :=
  ⟨⟨by decide, calc_twoMatch⟩,
    C3_field_scores_max twoMatchResults [candA, candB] (by decide) calc_twoMatch⟩

/-- C7: whenever a field match's score is stored for a candidate, the
excerpt stored alongside it is exactly the first 150 characters of that
match's content with the `"..."` marker appended — the marker is appended
unconditionally, for every stored excerpt, whether or not the content is
shorter than 150 characters. -/
theorem C7_excerpt_truncation (input : List (String × List FieldMatch))
    (cands : List Candidate) (hnd : (input.map Prod.fst).Nodup)
    (hok : calculate_scores input = .ok cands) :
    ∀ c ∈ cands, ∀ f e, dictGet? f c.field_matches = some e →
      ∃ ms m, dictGet? f input = some ms ∧ m ∈ ms ∧ m.resume_id = c.resume_id ∧
        e = m.content.take 150 ++ "..." ∧
        dictGet? f c.field_scores = some (similarity m.distance) := by
  obtain ⟨cands0, hp, rfl, hgood⟩ :=
    calculate_scores_ok_struct (S := fun _ => True) hok (fun _ _ _ _ => trivial)
  intro c hc f e he
  have hndids : ((cands0.map finalizeFn).map Candidate.resume_id).Nodup := by
    rw [ids_map_finalize]
    exact hgood.2
  have hfind : findCand c.resume_id (cands0.map finalizeFn) = some c :=
    findCand_of_mem hndids hc
  obtain ⟨c0, hc0, rfl⟩ := List.mem_map.mp hc
  have hal : (finalizeFn c0).field_scores.map Prod.fst
      = (finalizeFn c0).field_matches.map Prod.fst := (hgood.1 c0 hc0).2.1
  have hssome : (dictGet? f (finalizeFn c0).field_scores).isSome = true := by
    rw [dictGet?_isSome_iff, hal, ← dictGet?_isSome_iff, he]
    rfl
  obtain ⟨s, hs⟩ := Option.isSome_iff_exists.mp hssome
  have hsp : storedPair (cands0.map finalizeFn) (finalizeFn c0).resume_id f
      = some (s, e) := by
    rw [storedPair, hfind]
    show candPair (finalizeFn c0) f = some (s, e)
    rw [candPair, hs, he]
  have hchar := calculate_scores_storedPair hnd hok (finalizeFn c0).resume_id f
  rw [hsp] at hchar
  cases hin : dictGet? f input with
  | none =>
    rw [hin] at hchar
    cases hchar
  | some ms =>
    rw [hin] at hchar
    obtain ⟨hbound, l₁, m, l₂, hsplit, hr, hsim, hexc, hfirst⟩ :=
      bestFor_some (finalizeFn c0).resume_id ms s e hchar.symm
    refine ⟨ms, m, rfl, ?_, hr, hexc, ?_⟩
    · rw [hsplit]
      exact List.mem_append_right _ (List.mem_cons_self _ _)
    · rw [hs, hsim]

/-- Witness for C7 on the concrete two-match aggregation input; the stored
contents (`"python"`, `"java"`) are far shorter than 150 characters yet the
marker is appended. -/
theorem C7_excerpt_truncation_witness :
    ((twoMatchResults.map Prod.fst).Nodup ∧
      calculate_scores twoMatchResults = .ok [candA, candB]) ∧
    (∀ c ∈ [candA, candB], ∀ f e, dictGet? f c.field_matches = some e →
      ∃ ms m, dictGet? f twoMatchResults = some ms ∧ m ∈ ms ∧ m.resume_id = c.resume_id ∧
        e = m.content.take 150 ++ "..." ∧
        dictGet? f c.field_scores = some (similarity m.distance)) :=
  ⟨⟨by decide, calc_twoMatch⟩,
    C7_excerpt_truncation twoMatchResults [candA, candB] (by decide) calc_twoMatch⟩

end ResumeSearch
